import Mathlib

/-!
# Verification of the snappy codec specification

Shallow embedding of the snappy compression codec.  Byte strings are
modelled as `List Nat` (each element a byte value).  The repository source
available here is the unit-test file `snappy_unittest.cc`; the helper
routines `AppendLiteral` and `AppendCopy` defined in that file are embedded
directly from the source.  The codec proper (`snappy.cc`,
`snappy-internal.h`, `snappy-sinksource.h`) is not part of the source tree,
so those components (varint codec, tag codec, matcher, encoder, decoder,
validator) are modelled from the specification, as marked in the doc
comments below.
-/

namespace Snappy

/-- Modelled from the spec (§4.3.1, `FindMatchLength` of the missing
`snappy-internal.h`): length of the longest common prefix of two byte
sequences; the second argument carries its own upper bound `q_end` by
being a finite list. -/
def findMatchLength : List Nat → List Nat → Nat
  | a :: s, b :: t => if a = b then 1 + findMatchLength s t else 0
  | _, _ => 0

/-- Modelled from the spec (§4.2): read the little-endian value of the
first `k` bytes of a list (missing bytes count as 0). -/
def leVal : Nat → List Nat → Nat
  | 0, _ => 0
  | _ + 1, [] => 0
  | k + 1, b :: rest => b + 256 * leVal k rest

/-- Little-endian byte encoding of `n` using as few bytes as possible;
mirrors the `while (n > 0) { number[count++] = n & 0xff; n >>= 8; }` loop
of `AppendLiteral` in `snappy_unittest.cc`. -/
def leBytesOf (n : Nat) : List Nat :=
  if n = 0 then [] else n % 256 :: leBytesOf (n / 256)
termination_by n
decreasing_by exact Nat.div_lt_self (Nat.pos_of_ne_zero (by assumption)) (by omega)

/-- Modelled from the spec (§4.5): forward byte-by-byte copy used by the
decoder; appends `len` bytes to `out`, each read `offset` positions back
from the current end, so overlapping copies repeat forward. -/
def copyFrom (out : List Nat) (offset : Nat) : Nat → List Nat
  | 0 => out
  | len + 1 => copyFrom (out ++ [out.getD (out.length - offset) 0]) offset len

/-- Modelled from the spec (§4.1, `EncodeU32` of the missing varint codec):
little-endian base-128 encoding, continuation bit in the top bit of each
byte, minimal length. -/
def varintEncode (v : Nat) : List Nat :=
  if v < 128 then [v] else (v % 128 + 128) :: varintEncode (v / 128)
termination_by v
decreasing_by exact Nat.div_lt_self (by omega) (by omega)

/-- Modelled from the spec (§4.1, `DecodeU32` of the missing varint codec):
decode a varint, returning the decoded value scaled by the bits already
consumed together with the number of bytes read; fails on truncation, on a
5th byte with the continuation bit set, and on a 5th byte whose high bits
would overflow 32 bits. -/
def varintDecodeGo : List Nat → Nat → Option (Nat × Nat)
  | [], _ => none
  | b :: rest, shift =>
    if 28 ≤ shift then
      if b < 16 then some (b * 2 ^ shift, 1) else none
    else if b < 128 then
      some (b * 2 ^ shift, 1)
    else
      match varintDecodeGo rest (shift + 7) with
      | none => none
      | some (v, k) => some (b % 128 * 2 ^ shift + v, k + 1)

/-- Modelled from the spec (§4.1): `DecodeU32` on a byte string, returning
the decoded value and the number of bytes consumed. -/
def varintDecode (src : List Nat) : Option (Nat × Nat) :=
  varintDecodeGo src 0

/-- Modelled from the spec (§4.5, the `Uncompress` tag loop of the missing
`snappy.cc`): consume the tag stream `src`, extending the produced output
`out`, with the declared length `declared` as the output bound.  Fails on a
payload extending past the frame end, on a literal or copy overflowing the
declared output size, on a copy offset of 0 or larger than the bytes
already produced, and, once all tags are consumed, unless exactly
`declared` bytes were produced. -/
def execStep (declared t : Nat) (rest out : List Nat) : Option (Nat × List Nat) :=
  if t % 4 = 0 then
    if t / 4 < 60 then
      let len := t / 4 + 1
      if len ≤ rest.length ∧ out.length + len ≤ declared then
        some (len, out ++ rest.take len)
      else none
    else
      let k := t / 4 - 59
      if k ≤ rest.length then
        let len := leVal k rest + 1
        if len ≤ rest.length - k ∧ out.length + len ≤ declared then
          some (k + len, out ++ (rest.drop k).take len)
        else none
      else none
  else if t % 4 = 1 then
    match rest with
    | [] => none
    | b :: _ =>
      let len := 4 + t / 4 % 8
      let offset := t / 32 * 256 + b
      if 1 ≤ offset ∧ offset ≤ out.length ∧ out.length + len ≤ declared then
        some (1, copyFrom out offset len)
      else none
  else if t % 4 = 2 then
    if 2 ≤ rest.length then
      let len := t / 4 + 1
      let offset := leVal 2 rest
      if 1 ≤ offset ∧ offset ≤ out.length ∧ out.length + len ≤ declared then
        some (2, copyFrom out offset len)
      else none
    else none
  else
    if 4 ≤ rest.length then
      let len := t / 4 + 1
      let offset := leVal 4 rest
      if 1 ≤ offset ∧ offset ≤ out.length ∧ out.length + len ≤ declared then
        some (4, copyFrom out offset len)
      else none
    else none

/-- Modelled from the spec (§4.5): the decoder loop itself: from the
ExpectingTag state, consuming one tag either re-enters the loop or fails;
at the end of the tag stream exactly `declared` bytes must have been
produced. -/
def execTags (declared : Nat) : List Nat → List Nat → Option (List Nat)
  | [], out => if out.length = declared then some out else none
  | t :: rest, out =>
    match execStep declared t rest out with
    | none => none
    | some (n, out') => execTags declared (rest.drop n) out'
termination_by src => src.length
decreasing_by simp [List.length_drop]; omega

/-- Modelled from the spec (§4.5, `IsValidCompressedBuffer` of the missing
`snappy.cc`): the structural validator performs the same tag traversal and
checks as the decoder but tracks only the count of produced bytes and
writes no output. -/
def validStep (declared t : Nat) (rest : List Nat) (olen : Nat) : Option (Nat × Nat) :=
  if t % 4 = 0 then
    if t / 4 < 60 then
      let len := t / 4 + 1
      if len ≤ rest.length ∧ olen + len ≤ declared then
        some (len, olen + len)
      else none
    else
      let k := t / 4 - 59
      if k ≤ rest.length then
        let len := leVal k rest + 1
        if len ≤ rest.length - k ∧ olen + len ≤ declared then
          some (k + len, olen + len)
        else none
      else none
  else if t % 4 = 1 then
    match rest with
    | [] => none
    | b :: _ =>
      let len := 4 + t / 4 % 8
      let offset := t / 32 * 256 + b
      if 1 ≤ offset ∧ offset ≤ olen ∧ olen + len ≤ declared then
        some (1, olen + len)
      else none
  else if t % 4 = 2 then
    if 2 ≤ rest.length then
      let len := t / 4 + 1
      let offset := leVal 2 rest
      if 1 ≤ offset ∧ offset ≤ olen ∧ olen + len ≤ declared then
        some (2, olen + len)
      else none
    else none
  else
    if 4 ≤ rest.length then
      let len := t / 4 + 1
      let offset := leVal 4 rest
      if 1 ≤ offset ∧ offset ≤ olen ∧ olen + len ≤ declared then
        some (4, olen + len)
      else none
    else none

/-- Modelled from the spec (§4.5): the validator loop: the same traversal
as the decoder loop, tracking only the produced length. -/
def validTags (declared : Nat) : List Nat → Nat → Bool
  | [], olen => if olen = declared then true else false
  | t :: rest, olen =>
    match validStep declared t rest olen with
    | none => false
    | some (n, olen') => validTags declared (rest.drop n) olen'
termination_by src => src.length
decreasing_by simp [List.length_drop]; omega

/-- Modelled from the spec (§4.5, §6): `Uncompress` on a whole frame:
decode the length preamble, then run the tag loop. -/
def uncompress (frame : List Nat) : Option (List Nat) :=
  match varintDecode frame with
  | none => none
  | some (n, k) => execTags n (frame.drop k) []

/-- Modelled from the spec (§4.5, §6): `IsValidCompressedBuffer` on a whole
frame; never throws, returns a boolean. -/
def isValidCompressedBuffer (frame : List Nat) : Bool :=
  match varintDecode frame with
  | none => false
  | some (n, k) => validTags n (frame.drop k) 0

/-- Modelled from the spec (§4.5, §6): flat-buffer `GetUncompressedLength`:
decodes the leading varint and returns the value without consuming further
bytes; fails with MalformedInput on a truncated or over-long varint. -/
def getUncompressedLength (frame : List Nat) : Option Nat :=
  match varintDecode frame with
  | none => none
  | some (n, _) => some n

/-- Modelled from the spec (§4.1, §6): the Source-based overload of
`GetUncompressedLength` (the missing `snappy-sinksource.h` pull interface):
reads one byte at a time from the source, accumulating the value with a
running shift, with the same failure conditions as `DecodeU32`. -/
def readUncompressedLengthGo : List Nat → Nat → Nat → Option Nat
  | [], _, _ => none
  | b :: rest, shift, acc =>
    if 28 ≤ shift then
      if b < 16 then some (acc + b * 2 ^ shift) else none
    else if b < 128 then
      some (acc + b * 2 ^ shift)
    else
      readUncompressedLengthGo rest (shift + 7) (acc + b % 128 * 2 ^ shift)

/-- Modelled from the spec (§6): Source-based `GetUncompressedLength` on a
whole frame. -/
def getUncompressedLengthSource (frame : List Nat) : Option Nat :=
  readUncompressedLengthGo frame 0 0

/-- Modelled from the spec (§4.4): `MaxCompressedLength`. -/
def maxCompressedLength (n : Nat) : Nat :=
  32 + n + n / 6

/-- Embedded from `snappy_unittest.cc` `AppendLiteral`: emit a literal tag
(with inline length for runs of at most 60, little-endian length bytes
otherwise) followed by the literal payload. -/
def appendLiteral (dst : List Nat) (literal : List Nat) : List Nat :=
  if literal = [] then dst
  else
    let n := literal.length - 1
    if n < 60 then
      dst ++ [n * 4] ++ literal
    else
      dst ++ [(59 + (leBytesOf n).length) * 4] ++ leBytesOf n ++ literal

/-- Embedded from `snappy_unittest.cc` `AppendCopy`: how many bytes one
iteration of the copy-emission loop consumes from a remaining length. -/
def toCopyOf (length : Nat) : Nat :=
  if 68 ≤ length then 64 else if 64 < length then 60 else length

/-- Chunk lengths consumed by the successive iterations of the `AppendCopy`
loop for a copy of the given total length. -/
def copyChunks (length : Nat) : List Nat :=
  if hl : length = 0 then [] else toCopyOf length :: copyChunks (length - toCopyOf length)
termination_by length
decreasing_by simp only [toCopyOf]; split <;> (try split) <;> omega

/-- Embedded from `snappy_unittest.cc` `AppendCopy`: emit a copy of
`length` bytes at distance `offset`, splitting lengths above 64 and
choosing the copy-1, copy-2 or copy-4 tag encoding per chunk. -/
def appendCopy (dst : List Nat) (offset : Nat) (length : Nat) : List Nat :=
  if hl : length = 0 then dst
  else
    let toCopy := toCopyOf length
    let chunk :=
      if toCopy < 12 ∧ offset < 2048 then
        [1 + (toCopy - 4) * 4 + offset / 256 * 32, offset % 256]
      else if offset < 65536 then
        [2 + (toCopy - 1) * 4, offset % 256, offset / 256]
      else
        [3 + (toCopy - 1) * 4, offset % 256, offset / 256 % 256,
         offset / 65536 % 256, offset / 16777216 % 256]
    appendCopy (dst ++ chunk) offset (length - toCopy)
termination_by length
decreasing_by simp only [toCopyOf]; split <;> (try split) <;> omega

/-- Operations produced by the matcher: a literal run carrying its payload
bytes, or a copy of `length` bytes at distance `offset`. -/
inductive Op where
  | lit : List Nat → Op
  | cpy : Nat → Nat → Op

/-- Serialize a list of matcher operations into the tag byte stream. -/
def serializeOps : List Op → List Nat
  | [] => []
  | Op.lit l :: rest => appendLiteral [] l ++ serializeOps rest
  | Op.cpy o c :: rest => appendCopy [] o c ++ serializeOps rest

/-- Modelled from the spec (§4.3): multiplicative hash of four contiguous
bytes, reduced to `bits` bits. -/
def hashBytes (b0 b1 b2 b3 bits : Nat) : Nat :=
  (b0 + 256 * b1 + 65536 * b2 + 16777216 * b3) * 506832829 % 4294967296 / 2 ^ (32 - bits)

/-- Modelled from the spec (§3): hash-table size selection, iterating to
the smallest power of two at least the fragment size, clamped between
2^8 = 256 and 2^14 = 16384 entries. -/
def tableBitsGo (m : Nat) (b : Nat) : Nat :=
  if 14 ≤ b then 14
  else if m ≤ 2 ^ b then b
  else tableBitsGo m (b + 1)
termination_by 14 - b
decreasing_by omega

/-- Modelled from the spec (§3): log2 of the hash-table size for a
fragment of `m` bytes. -/
def tableBits (m : Nat) : Nat := tableBitsGo m 8

/-- Modelled from the spec (§4.3, the Matcher of the missing `snappy.cc`):
one forward pass over a fragment.  At each cursor position the next four
bytes are hashed, the hash-table candidate is checked by actual byte
comparison and the table slot is overwritten with the current position; a
verified four-byte match is extended with `findMatchLength`, the pending
literal run and the copy are recorded, and the cursor jumps past the match;
on a miss the cursor advances by one (the simplest conformant skip
schedule, a performance knob per §9).  The trailing bytes are flushed as a
final literal. -/
def matchLoop (frag : List Nat) (bits : Nat) (table : Nat → Nat) (ip litStart : Nat) :
    List Op :=
  if h4 : frag.length < ip + 4 then
    [Op.lit ((frag.drop litStart).take (frag.length - litStart))]
  else
    let h := hashBytes (frag.getD ip 0) (frag.getD (ip + 1) 0)
      (frag.getD (ip + 2) 0) (frag.getD (ip + 3) 0) bits
    let cand := table h
    let table' := fun i => if i = h then ip else table i
    if hm : cand < ip ∧
        frag.getD cand 0 = frag.getD ip 0 ∧
        frag.getD (cand + 1) 0 = frag.getD (ip + 1) 0 ∧
        frag.getD (cand + 2) 0 = frag.getD (ip + 2) 0 ∧
        frag.getD (cand + 3) 0 = frag.getD (ip + 3) 0 then
      let matched := 4 + findMatchLength (frag.drop (cand + 4)) (frag.drop (ip + 4))
      Op.lit ((frag.drop litStart).take (ip - litStart)) ::
        Op.cpy (ip - cand) matched ::
          matchLoop frag bits table' (ip + matched) (ip + matched)
    else
      matchLoop frag bits table' (ip + 1) litStart
termination_by frag.length - ip
decreasing_by all_goals simp_wf; omega

/-- Modelled from the spec (§4.4, `CompressFragment` of the missing
`snappy.cc`): run the matcher over one fragment with a fresh zero-filled
hash table and serialize the resulting operations. -/
def compressFragment (frag : List Nat) : List Nat :=
  serializeOps (matchLoop frag (tableBits frag.length) (fun _ => 0) 0 0)

/-- Modelled from the spec (§4.4): the maximum fragment size, 32 KiB. -/
def kBlockSize : Nat := 32768

/-- Modelled from the spec (§4.4): compress the input fragment by fragment;
copies never cross a fragment boundary. -/
def compressBody (s : List Nat) : List Nat :=
  if hs : s = [] then []
  else compressFragment (s.take kBlockSize) ++ compressBody (s.drop kBlockSize)
termination_by s.length
decreasing_by
  have hp : 0 < s.length := List.length_pos.mpr hs
  simp only [List.length_drop, kBlockSize]
  omega

/-- Modelled from the spec (§4.4, `Compress` of the missing `snappy.cc`):
emit the varint length preamble followed by the per-fragment tag streams. -/
def compress (s : List Nat) : List Nat :=
  varintEncode s.length ++ compressBody s

/-- Validity of a list of matcher operations with respect to the fragment
they were produced from, starting at output position `pos`: literal
payloads are the corresponding fragment slices, copies stay in bounds with
a nonzero 16-bit offset and length at least 4 and reference bytes equal to
the bytes they produce, and the operations produce exactly the rest of the
fragment. -/
def opsOk (frag : List Nat) : Nat → List Op → Prop
  | pos, [] => pos = frag.length
  | pos, Op.lit l :: rest =>
    l = (frag.drop pos).take l.length ∧ pos + l.length ≤ frag.length ∧
      opsOk frag (pos + l.length) rest
  | pos, Op.cpy o c :: rest =>
    1 ≤ o ∧ o ≤ pos ∧ o < 65536 ∧ 4 ≤ c ∧ pos + c ≤ frag.length ∧
      (∀ j, j < c → frag.getD (pos - o + j) 0 = frag.getD (pos + j) 0) ∧
      opsOk frag (pos + c) rest

/-! ## List glue lemmas -/

theorem getD_append_left (l1 l2 : List Nat) (i : Nat) (h : i < l1.length) :
    (l1 ++ l2).getD i 0 = l1.getD i 0 := by
  simp [List.getD_eq_getElem?_getD, List.getElem?_append, h]

theorem getD_append_right_add (l1 l2 : List Nat) (i : Nat) :
    (l1 ++ l2).getD (l1.length + i) 0 = l2.getD i 0 := by
  simp [List.getD_eq_getElem?_getD, List.getElem?_append_right (Nat.le_add_right _ _)]

theorem getD_take_lt (l : List Nat) (n i : Nat) (h : i < n) :
    (l.take n).getD i 0 = l.getD i 0 := by
  simp [List.getD_eq_getElem?_getD, List.getElem?_take, h]

theorem getD_drop_add (l : List Nat) (n i : Nat) :
    (l.drop n).getD i 0 = l.getD (n + i) 0 := by
  simp [List.getD_eq_getElem?_getD, List.getElem?_drop]

theorem take_succ_getD (l : List Nat) (n : Nat) (h : n < l.length) :
    l.take (n + 1) = l.take n ++ [l.getD n 0] := by
  rw [List.take_succ]
  congr 1
  rw [List.getD_eq_getElem?_getD]
  cases hg : l[n]? with
  | none => exact absurd (List.getElem?_eq_none_iff.mp hg) (by omega)
  | some a => simp [hg, Option.toList]

theorem take_eq_getD (l1 l2 : List Nat) (m : Nat) (h : l1.take m = l2.take m) :
    ∀ j, j < m → l1.getD j 0 = l2.getD j 0 := by
  intro j hj
  rw [← getD_take_lt l1 m j hj, ← getD_take_lt l2 m j hj, h]

/-! ## Little-endian helpers -/

theorem leVal_append (k : Nat) (xs ys : List Nat) (h : xs.length = k) :
    leVal k (xs ++ ys) = leVal k xs := by
  induction xs generalizing k with
  | nil => simp at h; subst h; rfl
  | cons b rest ih =>
    cases k with
    | zero => simp at h
    | succ k =>
      simp only [List.cons_append, leVal]
      rw [show rest.append ys = rest ++ ys from rfl, ih k (by simpa using h)]

theorem leVal_leBytesOf (n : Nat) : leVal (leBytesOf n).length (leBytesOf n) = n := by
  induction n using Nat.strong_induction_on with
  | _ n ih =>
    rw [leBytesOf]
    by_cases h0 : n = 0
    · simp [h0, leVal]
    · simp only [h0, if_false, List.length_cons, leVal]
      rw [ih (n / 256) (Nat.div_lt_self (Nat.pos_of_ne_zero h0) (by omega))]
      omega

theorem leBytesOf_length_le (k n : Nat) (h : n < 256 ^ k) :
    (leBytesOf n).length ≤ k := by
  induction k generalizing n with
  | zero => simp at h; simp [h, leBytesOf]
  | succ k ih =>
    rw [leBytesOf]
    by_cases h0 : n = 0
    · simp [h0]
    · simp only [h0, if_false, List.length_cons]
      have : n / 256 < 256 ^ k := by
        rw [Nat.div_lt_iff_lt_mul (by omega)]
        calc n < 256 ^ (k + 1) := h
        _ = 256 ^ k * 256 := by rw [Nat.pow_succ]
      exact Nat.succ_le_succ (ih _ this)

theorem leBytesOf_ne_nil (n : Nat) (h : 0 < n) : leBytesOf n ≠ [] := by
  rw [leBytesOf]
  simp [Nat.pos_iff_ne_zero.mp h]

/-! ## copyFrom -/

theorem copyFrom_length (o : Nat) : ∀ (c : Nat) (out : List Nat),
    (copyFrom out o c).length = out.length + c := by
  intro c
  induction c with
  | zero => intro out; simp [copyFrom]
  | succ c ih =>
    intro out
    rw [copyFrom, ih]
    simp
    omega

theorem copyFrom_take (pre frag : List Nat) (o : Nat) (ho1 : 1 ≤ o) :
    ∀ (c pos : Nat), o ≤ pos → pos + c ≤ frag.length →
    (∀ j, j < c → frag.getD (pos - o + j) 0 = frag.getD (pos + j) 0) →
    copyFrom (pre ++ frag.take pos) o c = pre ++ frag.take (pos + c) := by
  intro c
  induction c with
  | zero => intro pos _ _ _; simp [copyFrom]
  | succ c ih =>
    intro pos ho2 hpc hmatch
    have hpos : pos < frag.length := by omega
    have hlen : (pre ++ frag.take pos).length = pre.length + pos := by
      rw [List.length_append, List.length_take]
      omega
    have hro : pos - o < pos := by omega
    simp only [copyFrom]
    rw [hlen]
    have hidx : pre.length + pos - o = pre.length + (pos - o) := by omega
    have hread : (pre ++ frag.take pos).getD (pre.length + (pos - o)) 0 =
        frag.getD pos 0 := by
      rw [getD_append_right_add pre (frag.take pos) (pos - o),
        getD_take_lt frag pos (pos - o) hro]
      have h0 := hmatch 0 (Nat.succ_pos c)
      simpa using h0
    rw [hidx, hread]
    have hstep : (pre ++ frag.take pos) ++ [frag.getD pos 0] =
        pre ++ frag.take (pos + 1) := by
      rw [take_succ_getD frag pos hpos, List.append_assoc]
    have hm' : ∀ j, j < c → frag.getD (pos + 1 - o + j) 0 = frag.getD (pos + 1 + j) 0 := by
      intro j hj
      have hmj := hmatch (j + 1) (by omega)
      have e1 : pos + 1 - o + j = pos - o + (j + 1) := by omega
      have e2 : pos + 1 + j = pos + (j + 1) := by omega
      rw [e1, e2]
      exact hmj
    rw [hstep, ih (pos + 1) (by omega) (by omega) hm',
      show pos + 1 + c = pos + (c + 1) from by omega]

/-! ## findMatchLength -/

theorem findMatchLength_le (s t : List Nat) : findMatchLength s t ≤ t.length := by
  induction t generalizing s with
  | nil => cases s <;> simp [findMatchLength]
  | cons b t ih =>
    cases s with
    | nil => simp [findMatchLength]
    | cons a s =>
      rw [findMatchLength]
      split
      · have := ih s
        simp only [List.length_cons]
        omega
      · simp

theorem findMatchLength_take (s t : List Nat) :
    s.take (findMatchLength s t) = t.take (findMatchLength s t) := by
  induction t generalizing s with
  | nil => cases s <;> simp [findMatchLength]
  | cons b t ih =>
    cases s with
    | nil => simp [findMatchLength]
    | cons a s =>
      rw [findMatchLength]
      by_cases he : a = b
      · rw [if_pos he]
        have hc : 1 + findMatchLength s t = findMatchLength s t + 1 := by omega
        rw [hc, List.take_succ_cons, List.take_succ_cons, he, ih s]
      · rw [if_neg he]
        simp

theorem findMatchLength_ne (s t : List Nat) (hst : t.length ≤ s.length)
    (hlt : findMatchLength s t < t.length) :
    s.getD (findMatchLength s t) 0 ≠ t.getD (findMatchLength s t) 0 := by
  induction t generalizing s with
  | nil => simp at hlt
  | cons b t ih =>
    cases s with
    | nil => simp at hst
    | cons a s =>
      rw [findMatchLength] at hlt ⊢
      by_cases he : a = b
      · rw [if_pos he] at hlt ⊢
        simp only [List.length_cons] at hlt
        have hlt' : findMatchLength s t < t.length := by omega
        have hc : 1 + findMatchLength s t = findMatchLength s t + 1 := by omega
        rw [hc]
        simp only [List.getD_cons_succ]
        exact ih s (by simpa using hst) hlt'
      · rw [if_neg he]
        simpa using he

/-! ## Varint lemmas -/

theorem varintEncode_length_le (k n : Nat) (hk : 1 ≤ k) (h : n < 2 ^ (7 * k)) :
    (varintEncode n).length ≤ k := by
  induction k generalizing n with
  | zero => omega
  | succ k ih =>
    rw [varintEncode]
    by_cases hn : n < 128
    · simp only [hn, if_true, List.length_singleton]
      omega
    · simp only [hn, if_false, List.length_cons]
      have hk1 : 1 ≤ k := by
        by_contra hc
        have : k = 0 := by omega
        subst this
        simp at h
        omega
      have : n / 128 < 2 ^ (7 * k) := by
        rw [Nat.div_lt_iff_lt_mul (by omega)]
        calc n < 2 ^ (7 * (k + 1)) := h
        _ = 2 ^ (7 * k) * 128 := by
          rw [show 7 * (k + 1) = 7 * k + 7 from by omega, Nat.pow_add]
      exact Nat.succ_le_succ (ih _ hk1 this)

theorem varintDecodeGo_encode (n : Nat) : ∀ (shift : Nat) (rest : List Nat),
    shift % 7 = 0 → shift ≤ 28 → n < 2 ^ (32 - shift) →
    varintDecodeGo (varintEncode n ++ rest) shift =
      some (n * 2 ^ shift, (varintEncode n).length) := by
  induction n using Nat.strong_induction_on with
  | _ n ih =>
    intro shift rest h7 h28 hn
    rw [varintEncode]
    by_cases hsmall : n < 128
    · simp only [hsmall, if_true, List.cons_append, varintDecodeGo, List.length_cons,
        List.length_nil, List.nil_append]
      by_cases hs : 28 ≤ shift
      · have : shift = 28 := by omega
        subst this
        have : n < 16 := by simpa using hn
        simp [this]
      · simp [hs, hsmall]
    · have hs : ¬ 28 ≤ shift := by
        intro hc
        have : shift = 28 := by omega
        subst this
        simp at hn
        omega
      simp only [hsmall, if_false, List.cons_append, varintDecodeGo, hs,
        show ¬ n % 128 + 128 < 128 from by omega, if_false, List.length_cons]
      have hrec : n / 128 < 2 ^ (32 - (shift + 7)) := by
        rw [Nat.div_lt_iff_lt_mul (by omega)]
        calc n < 2 ^ (32 - shift) := hn
        _ = 2 ^ (32 - (shift + 7)) * 128 := by
          rw [show 32 - shift = (32 - (shift + 7)) + 7 from by omega, Nat.pow_add]
      rw [ih (n / 128) (Nat.div_lt_self (by omega) (by omega)) (shift + 7) rest
        (by omega) (by omega) hrec]
      have hval : n % 128 * 2 ^ shift + n / 128 * 2 ^ (shift + 7) = n * 2 ^ shift := by
        rw [Nat.pow_add]
        have : n / 128 * (2 ^ shift * 2 ^ 7) = n / 128 * 128 * 2 ^ shift := by ring_nf
        rw [this, ← Nat.add_mul]
        congr 1
        omega
      simp [hval]

theorem varintDecode_encode (n : Nat) (rest : List Nat) (h : n < 2 ^ 32) :
    varintDecode (varintEncode n ++ rest) = some (n, (varintEncode n).length) := by
  rw [varintDecode, varintDecodeGo_encode n 0 rest (by omega) (by omega) (by simpa using h)]
  simp

/-! ## Decoder step lemmas -/

theorem execStep_literal_small (d : Nat) (l rest out : List Nat)
    (h1 : 1 ≤ l.length) (h60 : l.length ≤ 60) (h3 : out.length + l.length ≤ d) :
    execStep d ((l.length - 1) * 4) (l ++ rest) out = some (l.length, out ++ l) := by
  have ht4 : (l.length - 1) * 4 % 4 = 0 := Nat.mul_mod_left _ 4
  have htd : (l.length - 1) * 4 / 4 = l.length - 1 := Nat.mul_div_cancel _ (by omega)
  have hlen1 : l.length - 1 + 1 = l.length := by omega
  rw [execStep.eq_def, if_pos ht4, htd, if_pos (show l.length - 1 < 60 from by omega)]
  simp only [hlen1]
  rw [if_pos (show l.length ≤ (l ++ rest).length ∧ out.length + l.length ≤ d from by
      constructor
      · simp
      · exact h3)]
  rw [List.take_left]

theorem execTags_literal_small (d : Nat) (l rest out : List Nat)
    (h1 : 1 ≤ l.length) (h60 : l.length ≤ 60) (h3 : out.length + l.length ≤ d) :
    execTags d ((l.length - 1) * 4 :: (l ++ rest)) out = execTags d rest (out ++ l) := by
  simp only [execTags, execStep_literal_small d l rest out h1 h60 h3]
  rw [List.drop_left]

theorem execStep_literal_big (d : Nat) (l rest out : List Nat)
    (h61 : 61 ≤ l.length) (h3 : out.length + l.length ≤ d) :
    execStep d ((59 + (leBytesOf (l.length - 1)).length) * 4)
      (leBytesOf (l.length - 1) ++ (l ++ rest)) out =
      some ((leBytesOf (l.length - 1)).length + l.length, out ++ l) := by
  have hk1 : 1 ≤ (leBytesOf (l.length - 1)).length := by
    have := leBytesOf_ne_nil (l.length - 1) (by omega)
    cases hb : leBytesOf (l.length - 1) with
    | nil => exact absurd hb this
    | cons x xs => simp
  have ht4 : (59 + (leBytesOf (l.length - 1)).length) * 4 % 4 = 0 := Nat.mul_mod_left _ 4
  have htd : (59 + (leBytesOf (l.length - 1)).length) * 4 / 4 =
      59 + (leBytesOf (l.length - 1)).length := Nat.mul_div_cancel _ (by omega)
  rw [execStep.eq_def, if_pos ht4, htd,
    if_neg (show ¬ 59 + (leBytesOf (l.length - 1)).length < 60 from by omega)]
  have hkk : 59 + (leBytesOf (l.length - 1)).length - 59 =
      (leBytesOf (l.length - 1)).length := by omega
  simp only [hkk]
  have hlenrest : (leBytesOf (l.length - 1) ++ (l ++ rest)).length =
      (leBytesOf (l.length - 1)).length + (l.length + rest.length) := by
    simp
  rw [if_pos (show (leBytesOf (l.length - 1)).length ≤
      (leBytesOf (l.length - 1) ++ (l ++ rest)).length from by rw [hlenrest]; omega)]
  have hval : leVal (leBytesOf (l.length - 1)).length
      (leBytesOf (l.length - 1) ++ (l ++ rest)) = l.length - 1 := by
    rw [leVal_append _ _ _ rfl, leVal_leBytesOf]
  simp only [hval, show l.length - 1 + 1 = l.length from by omega]
  rw [if_pos (show l.length ≤ (leBytesOf (l.length - 1) ++ (l ++ rest)).length -
      (leBytesOf (l.length - 1)).length ∧ out.length + l.length ≤ d from by
      rw [hlenrest]
      constructor
      · omega
      · exact h3)]
  rw [List.drop_left, List.take_left]

theorem execTags_literal_big (d : Nat) (l rest out : List Nat)
    (h61 : 61 ≤ l.length) (h3 : out.length + l.length ≤ d) :
    execTags d ((59 + (leBytesOf (l.length - 1)).length) * 4 ::
      (leBytesOf (l.length - 1) ++ (l ++ rest))) out = execTags d rest (out ++ l) := by
  simp only [execTags, execStep_literal_big d l rest out h61 h3]
  have : leBytesOf (l.length - 1) ++ (l ++ rest) =
      (leBytesOf (l.length - 1) ++ l) ++ rest := by
    rw [List.append_assoc]
  rw [this, List.drop_left' (by simp)]

theorem execTags_literal_step (d : Nat) (l rest out : List Nat)
    (h1 : 1 ≤ l.length) (h3 : out.length + l.length ≤ d) :
    execTags d (appendLiteral [] l ++ rest) out = execTags d rest (out ++ l) := by
  have hne : l ≠ [] := by
    cases l
    · simp at h1
    · simp
  by_cases h60 : l.length - 1 < 60
  · rw [appendLiteral, if_neg hne, if_pos h60]
    simp only [List.nil_append, List.cons_append]
    exact execTags_literal_small d l rest out h1 (by omega) h3
  · rw [appendLiteral, if_neg hne, if_neg h60]
    simp only [List.nil_append, List.cons_append, List.append_assoc]
    exact execTags_literal_big d l rest out (by omega) h3

/-! ## Copy step lemmas -/

theorem execStep_copy1 (d o ch : Nat) (tail out : List Nat)
    (hc4 : 4 ≤ ch) (h12 : ch < 12) (ho1 : 1 ≤ o) (ho : o < 2048)
    (h2 : o ≤ out.length) (h3 : out.length + ch ≤ d) :
    execStep d (1 + (ch - 4) * 4 + o / 256 * 32) (o % 256 :: tail) out =
      some (1, copyFrom out o ch) := by
  rw [execStep.eq_def,
    if_neg (show ¬ (1 + (ch - 4) * 4 + o / 256 * 32) % 4 = 0 from by omega),
    if_pos (show (1 + (ch - 4) * 4 + o / 256 * 32) % 4 = 1 from by omega)]
  simp only
  have hlen : 4 + (1 + (ch - 4) * 4 + o / 256 * 32) / 4 % 8 = ch := by omega
  have hoff : (1 + (ch - 4) * 4 + o / 256 * 32) / 32 * 256 + o % 256 = o := by omega
  rw [hlen, hoff, if_pos ⟨ho1, h2, h3⟩]

theorem execStep_copy2 (d o ch : Nat) (tail out : List Nat)
    (hc1 : 1 ≤ ch) (hc64 : ch ≤ 64) (ho1 : 1 ≤ o) (ho : o < 65536)
    (h2 : o ≤ out.length) (h3 : out.length + ch ≤ d) :
    execStep d (2 + (ch - 1) * 4) (o % 256 :: o / 256 :: tail) out =
      some (2, copyFrom out o ch) := by
  rw [execStep.eq_def,
    if_neg (show ¬ (2 + (ch - 1) * 4) % 4 = 0 from by omega),
    if_neg (show ¬ (2 + (ch - 1) * 4) % 4 = 1 from by omega),
    if_pos (show (2 + (ch - 1) * 4) % 4 = 2 from by omega),
    if_pos (show 2 ≤ (o % 256 :: o / 256 :: tail).length from by simp)]
  have hlen : (2 + (ch - 1) * 4) / 4 + 1 = ch := by omega
  have hoff : leVal 2 (o % 256 :: o / 256 :: tail) = o := by
    simp only [leVal]
    omega
  rw [hlen, hoff, if_pos ⟨ho1, h2, h3⟩]

theorem appendCopy_append (o : Nat) : ∀ (c : Nat) (dst : List Nat),
    appendCopy dst o c = dst ++ appendCopy [] o c := by
  intro c
  induction c using Nat.strong_induction_on with
  | _ c ih =>
    intro dst
    by_cases h0 : c = 0
    · subst h0
      have hz : ∀ dst' : List Nat, appendCopy dst' o 0 = dst' := by
        intro dst'
        rw [appendCopy.eq_def]
        simp
      rw [hz, hz]
      simp
    · have key : ∀ B : List Nat, appendCopy (dst ++ B) o (c - toCopyOf c) =
          dst ++ appendCopy B o (c - toCopyOf c) := by
        have hch : 1 ≤ toCopyOf c ∧ toCopyOf c ≤ c := by
          simp only [toCopyOf]
          split <;> (try split) <;> omega
        intro B
        rw [ih (c - toCopyOf c) (by omega) (dst ++ B), ih (c - toCopyOf c) (by omega) B,
          List.append_assoc]
      rw [appendCopy.eq_def]
      conv_rhs => rw [appendCopy.eq_def]
      simp only [h0, dite_false, List.nil_append]
      exact key _

theorem appendCopy_zero (dst : List Nat) (o : Nat) : appendCopy dst o 0 = dst := by
  rw [appendCopy.eq_def]
  simp

theorem execTags_appendCopy (d o : Nat) (frag pre tail : List Nat) (ho1 : 1 ≤ o)
    (ho3 : o < 65536) (hd : pre.length + frag.length ≤ d) :
    ∀ c, 4 ≤ c → ∀ pos, o ≤ pos → pos + c ≤ frag.length →
    (∀ j, j < c → frag.getD (pos - o + j) 0 = frag.getD (pos + j) 0) →
    execTags d (appendCopy [] o c ++ tail) (pre ++ frag.take pos) =
      execTags d tail (pre ++ frag.take (pos + c)) := by
  intro c
  induction c using Nat.strong_induction_on with
  | _ c ih =>
    intro hc4 pos ho2 hpc hmatch
    have hchf : 4 ≤ toCopyOf c ∧ toCopyOf c ≤ c ∧ toCopyOf c ≤ 64 ∧
        (c - toCopyOf c = 0 ∨ 4 ≤ c - toCopyOf c) := by
      simp only [toCopyOf]
      split <;> (try split) <;> omega
    obtain ⟨hch4, hchle, hch64, hres⟩ := hchf
    have houtlen : (pre ++ frag.take pos).length = pre.length + pos := by
      rw [List.length_append, List.length_take]
      omega
    have hcopy : copyFrom (pre ++ frag.take pos) o (toCopyOf c) =
        pre ++ frag.take (pos + toCopyOf c) :=
      copyFrom_take pre frag o ho1 (toCopyOf c) pos ho2 (by omega)
        (fun j hj => hmatch j (by omega))
    have hrec : execTags d (appendCopy [] o (c - toCopyOf c) ++ tail)
        (pre ++ frag.take (pos + toCopyOf c)) =
        execTags d tail (pre ++ frag.take (pos + c)) := by
      rcases hres with h0 | hres4
      · rw [h0, appendCopy_zero, List.nil_append,
          show pos + toCopyOf c = pos + c from by omega]
      · have hm' : ∀ j, j < c - toCopyOf c →
            frag.getD (pos + toCopyOf c - o + j) 0 =
              frag.getD (pos + toCopyOf c + j) 0 := by
          intro j hj
          have := hmatch (toCopyOf c + j) (by omega)
          rw [show pos + toCopyOf c - o + j = pos - o + (toCopyOf c + j) from by omega,
            show pos + toCopyOf c + j = pos + (toCopyOf c + j) from by omega]
          exact this
        have := ih (c - toCopyOf c) (by omega) hres4 (pos + toCopyOf c) (by omega)
          (by omega) hm'
        rw [show pos + toCopyOf c + (c - toCopyOf c) = pos + c from by omega] at this
        exact this
    rw [appendCopy.eq_def]
    simp only [show ¬ c = 0 from by omega, dite_false, List.nil_append]
    rw [appendCopy_append]
    by_cases hb : toCopyOf c < 12 ∧ o < 2048
    · rw [if_pos hb]
      simp only [List.cons_append, List.nil_append]
      have hstep := execStep_copy1 d o (toCopyOf c)
        (appendCopy [] o (c - toCopyOf c) ++ tail) (pre ++ frag.take pos)
        hch4 hb.1 ho1 hb.2 (by omega) (by omega)
      simp only [execTags, hstep, List.drop_succ_cons, List.drop_zero]
      rw [hcopy]
      exact hrec
    · rw [if_neg hb, if_pos ho3]
      simp only [List.cons_append, List.nil_append]
      have hstep := execStep_copy2 d o (toCopyOf c)
        (appendCopy [] o (c - toCopyOf c) ++ tail) (pre ++ frag.take pos)
        (by omega) hch64 ho1 ho3 (by omega) (by omega)
      simp only [execTags, hstep, List.drop_succ_cons, List.drop_zero]
      rw [hcopy]
      exact hrec

/-! ## Serialization of operation lists -/

theorem execTags_serializeOps (d : Nat) (frag pre tail : List Nat)
    (hd : pre.length + frag.length ≤ d) :
    ∀ (ops : List Op) (pos : Nat), opsOk frag pos ops →
    execTags d (serializeOps ops ++ tail) (pre ++ frag.take pos) =
      execTags d tail (pre ++ frag) := by
  intro ops
  induction ops with
  | nil =>
    intro pos hok
    simp only [opsOk] at hok
    subst hok
    rw [serializeOps, List.nil_append, List.take_length]
  | cons op rest ih =>
    cases op with
    | lit l =>
      intro pos hok
      obtain ⟨hl, hbound, hrest⟩ := hok
      by_cases h0 : l.length = 0
      · have hle : l = [] := List.length_eq_zero.mp h0
        subst hle
        have hemit : appendLiteral [] ([] : List Nat) = [] := by
          simp [appendLiteral]
        rw [serializeOps, hemit, List.nil_append]
        have := ih pos (by simpa using hrest)
        simpa using this
      · rw [serializeOps, List.append_assoc, execTags_literal_step d l _ _ (by omega)
          (by rw [List.length_append, List.length_take]; omega)]
        have htake : (pre ++ frag.take pos) ++ l = pre ++ frag.take (pos + l.length) := by
          rw [List.append_assoc, List.take_add, ← hl]
        rw [htake]
        exact ih (pos + l.length) hrest
    | cpy o c =>
      intro pos hok
      obtain ⟨ho1, ho2, ho3, hc4, hpc, hmatch, hrest⟩ := hok
      rw [serializeOps, List.append_assoc,
        execTags_appendCopy d o frag pre _ ho1 ho3 hd c hc4 pos ho2 hpc hmatch]
      exact ih (pos + c) hrest

/-! ## Matcher soundness -/

theorem opsOk_final (frag : List Nat) (litStart : Nat) (h2 : litStart ≤ frag.length) :
    opsOk frag litStart [Op.lit ((frag.drop litStart).take (frag.length - litStart))] := by
  have hlen : ((frag.drop litStart).take (frag.length - litStart)).length =
      frag.length - litStart := by
    simp [List.length_take, List.length_drop]
  simp only [opsOk, hlen]
  refine ⟨trivial, by omega, by omega⟩

theorem matchLoop_opsOk (frag : List Nat) (bits : Nat) (hf : frag.length ≤ 65536) :
    ∀ (n : Nat) (table : Nat → Nat) (ip litStart : Nat), frag.length - ip ≤ n →
    litStart ≤ ip → litStart ≤ frag.length →
    opsOk frag litStart (matchLoop frag bits table ip litStart) := by
  intro n
  induction n with
  | zero =>
    intro table ip litStart hn h1 h2
    rw [matchLoop.eq_def, dif_pos (show frag.length < ip + 4 from by omega)]
    exact opsOk_final frag litStart h2
  | succ n ih =>
    intro table ip litStart hn h1 h2
    rw [matchLoop.eq_def]
    by_cases h4 : frag.length < ip + 4
    · rw [dif_pos h4]
      exact opsOk_final frag litStart h2
    · rw [dif_neg h4]
      simp only
      set hsh := hashBytes (frag.getD ip 0) (frag.getD (ip + 1) 0)
        (frag.getD (ip + 2) 0) (frag.getD (ip + 3) 0) bits with hsh_def
      by_cases hm : table hsh < ip ∧
          frag.getD (table hsh) 0 = frag.getD ip 0 ∧
          frag.getD (table hsh + 1) 0 = frag.getD (ip + 1) 0 ∧
          frag.getD (table hsh + 2) 0 = frag.getD (ip + 2) 0 ∧
          frag.getD (table hsh + 3) 0 = frag.getD (ip + 3) 0
      · rw [dif_pos hm]
        obtain ⟨hcand, he0, he1, he2, he3⟩ := hm
        set m := findMatchLength (frag.drop (table hsh + 4)) (frag.drop (ip + 4))
          with m_def
        have hmle : m ≤ frag.length - (ip + 4) := by
          have := findMatchLength_le (frag.drop (table hsh + 4)) (frag.drop (ip + 4))
          simpa [List.length_drop] using this
        have hsl : ((frag.drop litStart).take (ip - litStart)).length =
            ip - litStart := by
          simp [List.length_take, List.length_drop]
          omega
        simp only [opsOk, hsl]
        refine ⟨trivial, by omega, ?_⟩
        rw [show litStart + (ip - litStart) = ip from by omega]
        have hgd : ∀ j, j < 4 + m →
            frag.getD (ip - (ip - table hsh) + j) 0 = frag.getD (ip + j) 0 := by
          intro j hj
          rw [show ip - (ip - table hsh) = table hsh from by omega]
          by_cases hj4 : j < 4
          · interval_cases j
            · simpa using he0
            · simpa using he1
            · simpa using he2
            · simpa using he3
          · have hpt := take_eq_getD _ _ m
              (findMatchLength_take (frag.drop (table hsh + 4)) (frag.drop (ip + 4)))
              (j - 4) (by omega)
            rw [getD_drop_add, getD_drop_add] at hpt
            rw [show table hsh + j = table hsh + 4 + (j - 4) from by omega,
              show ip + j = ip + 4 + (j - 4) from by omega]
            exact hpt
        refine ⟨by omega, by omega, by omega, by omega, by omega, hgd, ?_⟩
        exact ih _ (ip + (4 + m)) (ip + (4 + m)) (by omega) (by omega) (by omega)
      · rw [dif_neg hm]
        exact ih _ (ip + 1) litStart (by omega) (by omega) (by omega)

/-! ## Whole-frame composition -/

theorem execTags_compressFragment (d : Nat) (frag pre tail : List Nat)
    (hf : frag.length ≤ 65536) (hd : pre.length + frag.length ≤ d) :
    execTags d (compressFragment frag ++ tail) pre = execTags d tail (pre ++ frag) := by
  have hok := matchLoop_opsOk frag (tableBits frag.length) hf frag.length
    (fun _ => 0) 0 0 (by omega) (by omega) (by omega)
  have := execTags_serializeOps d frag pre tail hd _ 0 hok
  simpa [compressFragment] using this

theorem execTags_compressBody (d : Nat) :
    ∀ (s pre tail : List Nat), pre.length + s.length ≤ d →
    execTags d (compressBody s ++ tail) pre = execTags d tail (pre ++ s) := by
  suffices H : ∀ (n : Nat) (s pre tail : List Nat), s.length ≤ n →
      pre.length + s.length ≤ d →
      execTags d (compressBody s ++ tail) pre = execTags d tail (pre ++ s) from
    fun s pre tail h => H s.length s pre tail le_rfl h
  intro n
  induction n with
  | zero =>
    intro s pre tail hn hd'
    have hsnil : s = [] := List.length_eq_zero.mp (by omega)
    subst hsnil
    rw [compressBody.eq_def]
    simp
  | succ n ih =>
    intro s pre tail hn hd'
    by_cases hs : s = []
    · subst hs
      rw [compressBody.eq_def]
      simp
    · rw [compressBody.eq_def]
      simp only [hs, dite_false]
      rw [List.append_assoc]
      rw [execTags_compressFragment d (s.take kBlockSize) pre _
        (by simp only [List.length_take, kBlockSize]; omega)
        (by simp only [List.length_take]; omega)]
      rw [ih (s.drop kBlockSize) (pre ++ s.take kBlockSize) tail
        (by
          have hpos : 0 < s.length := List.length_pos.mpr hs
          simp only [List.length_drop, kBlockSize]
          omega)
        (by
          simp only [List.length_drop, List.length_append, List.length_take, kBlockSize]
          omega)]
      rw [List.append_assoc, List.take_append_drop]

/-! ## Validator and decoder agreement -/

theorem validStep_execStep (d t : Nat) (rest out : List Nat) :
    validStep d t rest out.length =
      Option.map (fun p => (p.1, p.2.length)) (execStep d t rest out) := by
  simp only [validStep.eq_def, execStep.eq_def]
  by_cases h0 : t % 4 = 0
  · simp only [h0, if_pos]
    by_cases h60 : t / 4 < 60
    · simp only [h60, if_pos]
      by_cases hc : t / 4 + 1 ≤ rest.length ∧ out.length + (t / 4 + 1) ≤ d
      · simp only [if_pos hc, Option.map]
        have : (out ++ rest.take (t / 4 + 1)).length = out.length + (t / 4 + 1) := by
          simp only [List.length_append, List.length_take]
          omega
        rw [this]
      · simp only [if_neg hc, Option.map]
    · simp only [h60, if_neg, if_false]
      by_cases hk : t / 4 - 59 ≤ rest.length
      · simp only [if_pos hk]
        by_cases hc : leVal (t / 4 - 59) rest + 1 ≤ rest.length - (t / 4 - 59) ∧
            out.length + (leVal (t / 4 - 59) rest + 1) ≤ d
        · simp only [if_pos hc, Option.map]
          have : (out ++ (rest.drop (t / 4 - 59)).take (leVal (t / 4 - 59) rest + 1)).length =
              out.length + (leVal (t / 4 - 59) rest + 1) := by
            simp only [List.length_append, List.length_take, List.length_drop]
            omega
          rw [this]
        · simp only [if_neg hc, Option.map]
      · simp only [if_neg hk, Option.map]
  · simp only [h0, if_neg, if_false]
    by_cases h1 : t % 4 = 1
    · simp only [h1, if_pos]
      cases rest with
      | nil => simp [Option.map]
      | cons b rem =>
        simp only
        by_cases hc : 1 ≤ t / 32 * 256 + b ∧ t / 32 * 256 + b ≤ out.length ∧
            out.length + (4 + t / 4 % 8) ≤ d
        · simp only [if_pos hc, Option.map]
          rw [copyFrom_length]
        · simp only [if_neg hc, Option.map]
    · simp only [h1, if_neg, if_false]
      by_cases h2 : t % 4 = 2
      · simp only [h2, if_pos]
        by_cases hr : 2 ≤ rest.length
        · simp only [if_pos hr]
          by_cases hc : 1 ≤ leVal 2 rest ∧ leVal 2 rest ≤ out.length ∧
              out.length + (t / 4 + 1) ≤ d
          · simp only [if_pos hc, Option.map]
            rw [copyFrom_length]
          · simp only [if_neg hc, Option.map]
        · simp only [if_neg hr, Option.map]
      · simp only [h2, if_neg, if_false]
        by_cases hr : 4 ≤ rest.length
        · simp only [if_pos hr]
          by_cases hc : 1 ≤ leVal 4 rest ∧ leVal 4 rest ≤ out.length ∧
              out.length + (t / 4 + 1) ≤ d
          · simp only [if_pos hc, Option.map]
            rw [copyFrom_length]
          · simp only [if_neg hc, Option.map]
        · simp only [if_neg hr, Option.map]

theorem validTags_execTags (d : Nat) :
    ∀ (src out : List Nat),
    (validTags d src out.length = true ↔ (execTags d src out).isSome) := by
  suffices H : ∀ (n : Nat) (src out : List Nat), src.length ≤ n →
      (validTags d src out.length = true ↔ (execTags d src out).isSome) from
    fun src out => H src.length src out le_rfl
  intro n
  induction n with
  | zero =>
    intro src out hn
    have hsrc : src = [] := List.length_eq_zero.mp (by omega)
    subst hsrc
    simp only [validTags, execTags]
    by_cases h : out.length = d
    · simp [h]
    · simp [h]
  | succ n ih =>
    intro src out hn
    cases src with
    | nil =>
      simp only [validTags, execTags]
      by_cases h : out.length = d
      · simp [h]
      · simp [h]
    | cons t rest =>
      simp only [validTags, execTags, validStep_execStep d t rest out]
      cases hstep : execStep d t rest out with
      | none => simp
      | some p =>
        obtain ⟨m, out'⟩ := p
        simp only [Option.map_some']
        exact ih (rest.drop m) out' (by
          simp only [List.length_drop, List.length_cons] at hn ⊢
          omega)

/-! ## Size accounting -/

theorem appendLiteral_length_le (l : List Nat) (hle : l.length ≤ 65536) :
    (appendLiteral [] l).length ≤ l.length + 3 := by
  by_cases hnil : l = []
  · simp [appendLiteral, hnil]
  · rw [appendLiteral, if_neg hnil]
    by_cases h60 : l.length - 1 < 60
    · rw [if_pos h60]
      simp
    · rw [if_neg h60]
      have hkb : (leBytesOf (l.length - 1)).length ≤ 2 :=
        leBytesOf_length_le 2 (l.length - 1) (by norm_num; omega)
      simp only [List.nil_append, List.length_cons, List.length_append, List.length_nil]
      omega

theorem appendLiteral_length_small (l : List Nat) (h60 : l.length ≤ 60) :
    (appendLiteral [] l).length ≤ l.length + 1 := by
  by_cases hnil : l = []
  · simp [appendLiteral, hnil]
  · have h1 : 1 ≤ l.length := by
      cases l
      · exact absurd rfl hnil
      · simp
    rw [appendLiteral, if_neg hnil, if_pos (by omega)]
    simp

theorem appendCopy_length_le (o : Nat) (ho : o < 65536) : ∀ c, 4 ≤ c →
    (appendCopy [] o c).length + 1 ≤ c := by
  intro c
  induction c using Nat.strong_induction_on with
  | _ c ih =>
    intro hc4
    have hchf : 4 ≤ toCopyOf c ∧ toCopyOf c ≤ c ∧ toCopyOf c ≤ 64 ∧
        (c - toCopyOf c = 0 ∨ 4 ≤ c - toCopyOf c) := by
      simp only [toCopyOf]
      split <;> (try split) <;> omega
    obtain ⟨hch4, hchle, hch64, hres⟩ := hchf
    rw [appendCopy.eq_def]
    simp only [show ¬ c = 0 from by omega, dite_false, List.nil_append]
    rw [appendCopy_append]
    have hchunk : (if toCopyOf c < 12 ∧ o < 2048 then
          [1 + (toCopyOf c - 4) * 4 + o / 256 * 32, o % 256]
        else if o < 65536 then [2 + (toCopyOf c - 1) * 4, o % 256, o / 256]
        else [3 + (toCopyOf c - 1) * 4, o % 256, o / 256 % 256,
          o / 65536 % 256, o / 16777216 % 256]).length ≤ 3 := by
      split <;> simp_all
    rw [List.length_append]
    rcases hres with h0 | hres4
    · rw [h0, appendCopy_zero]
      simp only [List.length_nil]
      omega
    · have := ih (c - toCopyOf c) (by omega) hres4
      omega

theorem matchLoop_cost (frag : List Nat) (bits : Nat) (hf : frag.length ≤ 65536) :
    ∀ (n : Nat) (table : Nat → Nat) (ip litStart : Nat), frag.length - ip ≤ n →
    litStart ≤ ip → litStart ≤ frag.length →
    (serializeOps (matchLoop frag bits table ip litStart)).length ≤
      (frag.length - litStart) + (frag.length - litStart) / 16 + 5 := by
  intro n
  induction n with
  | zero =>
    intro table ip litStart hn h1 h2
    rw [matchLoop.eq_def, dif_pos (show frag.length < ip + 4 from by omega)]
    rw [serializeOps, serializeOps, List.append_nil]
    have hsl : ((frag.drop litStart).take (frag.length - litStart)).length =
        frag.length - litStart := by
      simp [List.length_take, List.length_drop]
    have := appendLiteral_length_le ((frag.drop litStart).take (frag.length - litStart))
      (by omega)
    omega
  | succ n ih =>
    intro table ip litStart hn h1 h2
    rw [matchLoop.eq_def]
    by_cases h4 : frag.length < ip + 4
    · rw [dif_pos h4]
      rw [serializeOps, serializeOps, List.append_nil]
      have hsl : ((frag.drop litStart).take (frag.length - litStart)).length =
          frag.length - litStart := by
        simp [List.length_take, List.length_drop]
      have := appendLiteral_length_le ((frag.drop litStart).take (frag.length - litStart))
        (by omega)
      omega
    · rw [dif_neg h4]
      simp only
      set hsh := hashBytes (frag.getD ip 0) (frag.getD (ip + 1) 0)
        (frag.getD (ip + 2) 0) (frag.getD (ip + 3) 0) bits with hsh_def
      by_cases hm : table hsh < ip ∧
          frag.getD (table hsh) 0 = frag.getD ip 0 ∧
          frag.getD (table hsh + 1) 0 = frag.getD (ip + 1) 0 ∧
          frag.getD (table hsh + 2) 0 = frag.getD (ip + 2) 0 ∧
          frag.getD (table hsh + 3) 0 = frag.getD (ip + 3) 0
      · rw [dif_pos hm]
        set m := findMatchLength (frag.drop (table hsh + 4)) (frag.drop (ip + 4))
          with m_def
        have hmle : m ≤ frag.length - (ip + 4) := by
          have := findMatchLength_le (frag.drop (table hsh + 4)) (frag.drop (ip + 4))
          simpa [List.length_drop] using this
        rw [serializeOps, serializeOps]
        simp only [List.length_append]
        have hsl : ((frag.drop litStart).take (ip - litStart)).length = ip - litStart := by
          simp [List.length_take, List.length_drop]
          omega
        have hcopylen := appendCopy_length_le (ip - table hsh) (by omega) (4 + m) (by omega)
        have hrec := ih (fun i => if i = hsh then ip else table i) (ip + (4 + m))
          (ip + (4 + m)) (by omega) (by omega) (by omega)
        by_cases ha : ip - litStart ≤ 60
        · have hlit := appendLiteral_length_small
            ((frag.drop litStart).take (ip - litStart)) (by omega)
          omega
        · have hlit := appendLiteral_length_le
            ((frag.drop litStart).take (ip - litStart)) (by omega)
          omega
      · rw [dif_neg hm]
        exact ih _ (ip + 1) litStart (by omega) (by omega) (by omega)

theorem compressFragment_length_le (frag : List Nat) (hf : frag.length ≤ 65536) :
    (compressFragment frag).length ≤ frag.length + frag.length / 16 + 5 := by
  have := matchLoop_cost frag (tableBits frag.length) hf frag.length
    (fun _ => 0) 0 0 (by omega) (by omega) (by omega)
  simpa [compressFragment] using this

theorem compressBody_length_le : ∀ (n : Nat) (s : List Nat), s.length ≤ n →
    (compressBody s).length ≤
      s.length + s.length / 16 + 5 * ((s.length + 32767) / 32768) := by
  intro n
  induction n with
  | zero =>
    intro s hn
    have hsnil : s = [] := List.length_eq_zero.mp (by omega)
    subst hsnil
    rw [compressBody.eq_def]
    simp
  | succ n ih =>
    intro s hn
    by_cases hs : s = []
    · subst hs
      rw [compressBody.eq_def]
      simp
    · have hpos : 0 < s.length := List.length_pos.mpr hs
      rw [compressBody.eq_def]
      simp only [hs, dite_false]
      rw [List.length_append]
      have hfr := compressFragment_length_le (s.take kBlockSize)
        (by simp only [List.length_take, kBlockSize]; omega)
      have hrest := ih (s.drop kBlockSize) (by
        simp only [List.length_drop, kBlockSize]
        omega)
      simp only [List.length_take, List.length_drop, kBlockSize] at hfr hrest ⊢
      omega

/-! ## Source-based length reading agrees with the flat parse -/

theorem readUncompressedLengthGo_eq (src : List Nat) : ∀ (shift acc : Nat),
    readUncompressedLengthGo src shift acc =
      Option.map (fun p => acc + p.1) (varintDecodeGo src shift) := by
  induction src with
  | nil =>
    intro shift acc
    rfl
  | cons b rest ih =>
    intro shift acc
    simp only [readUncompressedLengthGo, varintDecodeGo]
    by_cases hs : 28 ≤ shift
    · by_cases hb : b < 16 <;> simp [hs, hb]
    · by_cases hb : b < 128
      · simp [hs, hb]
      · simp only [hs, hb, if_neg, if_false]
        rw [ih (shift + 7) (acc + b % 128 * 2 ^ shift)]
        cases varintDecodeGo rest (shift + 7) with
        | none => rfl
        | some p =>
          obtain ⟨v, k⟩ := p
          simp only [Option.map_some']
          congr 1
          omega

/-! ## Copy chunk structure -/

theorem copyChunks_cons (r : Nat) (hr : 1 ≤ r) :
    copyChunks r = toCopyOf r :: copyChunks (r - toCopyOf r) := by
  rw [copyChunks.eq_def, dif_neg (show ¬ r = 0 from by omega)]

theorem copyChunks_all_ge (c : Nat) : 4 ≤ c → ∀ ch ∈ copyChunks c, 4 ≤ ch := by
  induction c using Nat.strong_induction_on with
  | _ c ih =>
    intro hc4 ch hch
    have hchf : 4 ≤ toCopyOf c ∧ toCopyOf c ≤ c ∧
        (c - toCopyOf c = 0 ∨ 4 ≤ c - toCopyOf c) := by
      simp only [toCopyOf]
      split <;> (try split) <;> omega
    obtain ⟨h1, h2, h3⟩ := hchf
    rw [copyChunks_cons c (by omega)] at hch
    rcases List.mem_cons.mp hch with he | hm
    · omega
    · rcases h3 with h0 | h4
      · rw [h0] at hm
        rw [copyChunks.eq_def] at hm
        simp at hm
      · exact ih (c - toCopyOf c) (by omega) h4 ch hm

/-! ## Claim theorems -/

/-- C1: for every byte string s with |s| < 2^32, uncompressing the result of
compressing s yields exactly s (round-trip identity of Compress followed by
Uncompress). -/
theorem claim_roundtrip (s : List Nat) (hb : ∀ b ∈ s, b < 256)
    (hlen : s.length < 2 ^ 32) :
    uncompress (compress s) = some s := by
  rw [compress]
  simp only [uncompress, varintDecode_encode s.length (compressBody s) hlen,
    List.drop_left]
  have hbody := execTags_compressBody s.length s [] [] (by simp)
  rw [List.append_nil, List.nil_append] at hbody
  rw [hbody]
  simp [execTags]

/-- Witness for C1: the round trip at the concrete input [1, 2, 3]. -/
theorem claim_roundtrip_witness :
    (∀ b ∈ ([1, 2, 3] : List Nat), b < 256) ∧
      ([1, 2, 3] : List Nat).length < 2 ^ 32 ∧
      uncompress (compress [1, 2, 3]) = some [1, 2, 3] :=
  ⟨by decide, by decide, claim_roundtrip [1, 2, 3] (by decide) (by decide)⟩

/-- C2: for every input f, IsValidCompressedBuffer accepts f exactly when
Uncompress succeeds on f: the validator and the decoder agree on the
accept/reject decision for every possible input. -/
theorem claim_validator_agreement (f : List Nat) :
    isValidCompressedBuffer f = true ↔ (uncompress f).isSome := by
  simp only [isValidCompressedBuffer, uncompress]
  cases varintDecode f with
  | none => simp
  | some p =>
    obtain ⟨n, k⟩ := p
    simpa using validTags_execTags n (f.drop k) []

/-- C3: the frame produced by Compress is no longer than
MaxCompressedLength of the input length, and MaxCompressedLength n equals
32 + n + n / 6. -/
theorem claim_bounded_growth (s : List Nat) (hb : ∀ b ∈ s, b < 256)
    (hlen : s.length < 2 ^ 32) :
    (compress s).length ≤ maxCompressedLength s.length ∧
      maxCompressedLength s.length = 32 + s.length + s.length / 6 := by
  have h32 : (2 : Nat) ^ 32 = 4294967296 := by norm_num
  have h35 : (2 : Nat) ^ (7 * 5) = 34359738368 := by norm_num
  refine ⟨?_, rfl⟩
  rw [compress, List.length_append, maxCompressedLength]
  have h1 : (varintEncode s.length).length ≤ 5 :=
    varintEncode_length_le 5 s.length (by omega) (by omega)
  have h2 := compressBody_length_le s.length s le_rfl
  omega

/-- Witness for C3 at the concrete input [7, 7, 7, 7]. -/
theorem claim_bounded_growth_witness :
    (∀ b ∈ ([7, 7, 7, 7] : List Nat), b < 256) ∧
      ([7, 7, 7, 7] : List Nat).length < 2 ^ 32 ∧
      ((compress [7, 7, 7, 7]).length ≤ maxCompressedLength ([7, 7, 7, 7] : List Nat).length ∧
        maxCompressedLength ([7, 7, 7, 7] : List Nat).length =
          32 + ([7, 7, 7, 7] : List Nat).length + ([7, 7, 7, 7] : List Nat).length / 6) :=
  ⟨by decide, by decide, claim_bounded_growth [7, 7, 7, 7] (by decide) (by decide)⟩

/-- C4: GetUncompressedLength applied to Compress s succeeds and returns
|s|, and it decodes only the leading varint, never consuming further bytes:
any continuation after the length preamble yields the same answer. -/
theorem claim_length_preamble (s rest : List Nat) (hb : ∀ b ∈ s, b < 256)
    (hlen : s.length < 2 ^ 32) :
    getUncompressedLength (compress s) = some s.length ∧
      getUncompressedLength (varintEncode s.length ++ rest) = some s.length := by
  constructor
  · rw [compress]
    simp only [getUncompressedLength, varintDecode_encode s.length _ hlen]
  · simp only [getUncompressedLength, varintDecode_encode s.length _ hlen]

/-- Witness for C4 at the concrete input [9, 8] with continuation [0]. -/
theorem claim_length_preamble_witness :
    (∀ b ∈ ([9, 8] : List Nat), b < 256) ∧ ([9, 8] : List Nat).length < 2 ^ 32 ∧
      (getUncompressedLength (compress [9, 8]) = some ([9, 8] : List Nat).length ∧
        getUncompressedLength (varintEncode ([9, 8] : List Nat).length ++ [0]) =
          some ([9, 8] : List Nat).length) :=
  ⟨by decide, by decide, claim_length_preamble [9, 8] [0] (by decide) (by decide)⟩

/-- C5: the one-byte frame [0xF0] (truncated varint) and the six-byte frame
[0x80,0x80,0x80,0x80,0x80,0x0A] (varint with more than 5 continuation
bytes) are rejected by GetUncompressedLength, by IsValidCompressedBuffer,
and by Uncompress. -/
theorem claim_bad_varints_rejected :
    getUncompressedLength [240] = none ∧
    isValidCompressedBuffer [240] = false ∧
    uncompress [240] = none ∧
    getUncompressedLength [128, 128, 128, 128, 128, 10] = none ∧
    isValidCompressedBuffer [128, 128, 128, 128, 128, 10] = false ∧
    uncompress [128, 128, 128, 128, 128, 10] = none := by
  refine ⟨rfl, rfl, rfl, rfl, rfl, rfl⟩

/-- C6: the four-byte frame 0x05 0x12 0x00 0x00 (declared length 5, copy
tag with offset 0 and length 5) is rejected both by IsValidCompressedBuffer
and by Uncompress: offset 0 is never legal. -/
theorem claim_zero_offset_rejected :
    isValidCompressedBuffer [5, 18, 0, 0] = false ∧
      uncompress [5, 18, 0, 0] = none := by
  constructor
  · simp [isValidCompressedBuffer, varintDecode, varintDecodeGo, validTags, validStep,
      leVal]
  · simp [uncompress, varintDecode, varintDecodeGo, execTags, execStep, leVal]

/-- C7: the AppendCopy emitter consumes 64 bytes when at least 68 remain,
60 when 65 to 67 remain, and all remaining bytes otherwise; for a copy of
length above 64 every chunk after the first still has length at least 4. -/
theorem claim_copy_split (r L : Nat) (hr : 1 ≤ r) (hL : 64 < L) :
    ((68 ≤ r → toCopyOf r = 64) ∧
      (65 ≤ r → r ≤ 67 → toCopyOf r = 60) ∧
      (r ≤ 64 → toCopyOf r = r) ∧
      copyChunks r = toCopyOf r :: copyChunks (r - toCopyOf r)) ∧
    (∀ ch ∈ (copyChunks L).drop 1, 4 ≤ ch) := by
  constructor
  · refine ⟨?_, ?_, ?_, copyChunks_cons r hr⟩
    · intro h
      simp [toCopyOf, h]
    · intro h1 h2
      simp only [toCopyOf]
      rw [if_neg (by omega), if_pos (by omega)]
    · intro h
      simp only [toCopyOf]
      rw [if_neg (by omega), if_neg (by omega)]
  · intro ch hch
    have hres : copyChunks L = toCopyOf L :: copyChunks (L - toCopyOf L) :=
      copyChunks_cons L (by omega)
    rw [hres] at hch
    simp only [List.drop_succ_cons, List.drop_zero] at hch
    have hr4 : L - toCopyOf L = 0 ∨ 4 ≤ L - toCopyOf L := by
      simp only [toCopyOf]
      split <;> (try split) <;> omega
    rcases hr4 with h0 | h4
    · rw [h0, copyChunks.eq_def] at hch
      simp at hch
    · exact copyChunks_all_ge (L - toCopyOf L) h4 ch hch

/-- Witness for C7 at r = 100 and L = 100. -/
theorem claim_copy_split_witness :
    (1 ≤ 100 ∧ 64 < 100) ∧
      (68 ≤ 100 → toCopyOf 100 = 64) ∧
      (∀ ch ∈ (copyChunks 100).drop 1, 4 ≤ ch) :=
  ⟨⟨by decide, by decide⟩, (claim_copy_split 100 100 (by decide) (by decide)).1.1,
    (claim_copy_split 100 100 (by decide) (by decide)).2⟩

/-- C8: AppendLiteral emits, for runs of length at most 60, the single tag
byte ((run_len - 1) <<  2) followed by the payload, and otherwise the tag
byte ((59 + k) << 2) where k in 1..4 is the byte count of run_len - 1
little-endian, followed by those k bytes and the payload. -/
theorem claim_literal_encoding (l : List Nat) (h1 : 1 ≤ l.length) :
    (l.length ≤ 60 → appendLiteral [] l = (l.length - 1) * 4 :: l) ∧
    (60 < l.length → l.length - 1 < 2 ^ 32 →
      appendLiteral [] l =
        (59 + (leBytesOf (l.length - 1)).length) * 4 ::
          (leBytesOf (l.length - 1) ++ l) ∧
      1 ≤ (leBytesOf (l.length - 1)).length ∧
      (leBytesOf (l.length - 1)).length ≤ 4 ∧
      leVal (leBytesOf (l.length - 1)).length (leBytesOf (l.length - 1)) =
        l.length - 1) := by
  have hnil : l ≠ [] := by
    cases l
    · simp at h1
    · simp
  constructor
  · intro h60
    rw [appendLiteral, if_neg hnil, if_pos (by omega)]
    simp
  · intro h60 h32
    refine ⟨?_, ?_, ?_, leVal_leBytesOf (l.length - 1)⟩
    · rw [appendLiteral, if_neg hnil, if_neg (by omega)]
      simp
    · have := leBytesOf_ne_nil (l.length - 1) (by omega)
      cases hb : leBytesOf (l.length - 1) with
      | nil => exact absurd hb this
      | cons x xs => simp
    · exact leBytesOf_length_le 4 (l.length - 1) (by norm_num; omega)

/-- Witness for C8 at a run of length 61. -/
theorem claim_literal_encoding_witness :
    1 ≤ (List.replicate 61 5).length ∧
      (60 < (List.replicate 61 5).length → (List.replicate 61 5).length - 1 < 2 ^ 32 →
        appendLiteral [] (List.replicate 61 5) =
          (59 + (leBytesOf ((List.replicate 61 5).length - 1)).length) * 4 ::
            (leBytesOf ((List.replicate 61 5).length - 1) ++ List.replicate 61 5) ∧
        1 ≤ (leBytesOf ((List.replicate 61 5).length - 1)).length ∧
        (leBytesOf ((List.replicate 61 5).length - 1)).length ≤ 4 ∧
        leVal (leBytesOf ((List.replicate 61 5).length - 1)).length
            (leBytesOf ((List.replicate 61 5).length - 1)) =
          (List.replicate 61 5).length - 1) := by
  constructor
  · decide
  · intro ha hbnd
    exact (claim_literal_encoding (List.replicate 61 5) (by decide)).2 ha hbnd

/-- C9: if FindMatchLength(s, t) returns m, then the first m bytes of s and
t agree and either m = |t| (the bound was reached) or the bytes at index m
differ; s must extend at least as far as the bound on t. -/
theorem claim_find_match_length (s t : List Nat) (hb : ∀ b ∈ s, b < 256)
    (hb' : ∀ b ∈ t, b < 256) (hst : t.length ≤ s.length) :
    findMatchLength s t ≤ t.length ∧
    s.take (findMatchLength s t) = t.take (findMatchLength s t) ∧
    (findMatchLength s t = t.length ∨
      s.getD (findMatchLength s t) 0 ≠ t.getD (findMatchLength s t) 0) := by
  refine ⟨findMatchLength_le s t, findMatchLength_take s t, ?_⟩
  by_cases h : findMatchLength s t = t.length
  · exact Or.inl h
  · refine Or.inr (findMatchLength_ne s t hst ?_)
    have := findMatchLength_le s t
    omega

/-- Witness for C9 at s = [1, 2, 9, 4], t = [1, 2, 3]. -/
theorem claim_find_match_length_witness :
    (∀ b ∈ ([1, 2, 9, 4] : List Nat), b < 256) ∧
      (∀ b ∈ ([1, 2, 3] : List Nat), b < 256) ∧
      ([1, 2, 3] : List Nat).length ≤ ([1, 2, 9, 4] : List Nat).length ∧
      (findMatchLength [1, 2, 9, 4] [1, 2, 3] ≤ ([1, 2, 3] : List Nat).length ∧
        ([1, 2, 9, 4] : List Nat).take (findMatchLength [1, 2, 9, 4] [1, 2, 3]) =
          ([1, 2, 3] : List Nat).take (findMatchLength [1, 2, 9, 4] [1, 2, 3]) ∧
        (findMatchLength [1, 2, 9, 4] [1, 2, 3] = ([1, 2, 3] : List Nat).length ∨
          ([1, 2, 9, 4] : List Nat).getD (findMatchLength [1, 2, 9, 4] [1, 2, 3]) 0 ≠
            ([1, 2, 3] : List Nat).getD (findMatchLength [1, 2, 9, 4] [1, 2, 3]) 0)) :=
  ⟨by decide, by decide, by decide,
    claim_find_match_length [1, 2, 9, 4] [1, 2, 3] (by decide) (by decide) (by decide)⟩

/-- C10: the flat-buffer overload of GetUncompressedLength and the
Source-based overload agree on every input: same success or failure, and on
success the same length. -/
theorem claim_length_overloads_agree (f : List Nat) :
    getUncompressedLengthSource f = getUncompressedLength f := by
  simp only [getUncompressedLengthSource, getUncompressedLength, varintDecode,
    readUncompressedLengthGo_eq f 0 0]
  cases varintDecodeGo f 0 with
  | none => rfl
  | some p =>
    obtain ⟨v, k⟩ := p
    simp

end Snappy
